import Mathlib

/-!
Verification of the shhoook HTTP-to-shell gateway (src/src/main.go) against
its natural-language specification.  The Go program is shallowly embedded:
pure helper functions of main.go become Lean functions of the same name,
Go maps built by repeated assignment become functions `String → Option String`
updated by folds over association lists, and the per-request dispatch handler
becomes a function from an (abstract) request and an execution oracle to an
outcome.  Machine integers that cannot overflow in the modelled domain
(durations in nanoseconds, HTTP status codes) are modelled as `Int`.
-/

namespace Shhoook

/-! ## Go map reads and writes

A Go `map[string]string` is modelled by the association list of the pairs
written into it, read back with a last-write-wins lookup (for a list that
really represents a Go map the keys are distinct, and `lookupLast` is then
the map's value at the key). -/

/-- Value of the last binding of `k` in `src` (the value a Go map holds at
`k` after the pairs of `src` were assigned in order), `none` when `k` never
occurs. -/
def lookupLast : List (String × String) → String → Option String
  | [], _ => none
  | kv :: rest, k =>
    match lookupLast rest k with
    | some v => some v
    | none => if kv.1 = k then some kv.2 else none

/-- Embedding of the Go loop `for k, v := range src { params[k] = v }`:
every pair of `src` is written into the map `p`. -/
def setAll (p : String → Option String) : List (String × String) → String → Option String
  | [] => p
  | kv :: rest => setAll (fun k => if k = kv.1 then some kv.2 else p k) rest

theorem setAll_lookup (src : List (String × String)) (p : String → Option String) (k : String) :
    setAll p src k = match lookupLast src k with | some v => some v | none => p k := by
  induction src generalizing p with
  | nil => simp [setAll, lookupLast]
  | cons kv rest ih =>
    show setAll (fun k => if k = kv.1 then some kv.2 else p k) rest k = _
    rw [ih]
    simp only [lookupLast]
    cases lookupLast rest k with
    | some v => rfl
    | none =>
      by_cases h : kv.1 = k
      · subst h; simp
      · rw [if_neg h, if_neg (fun hk : k = kv.1 => h hk.symm)]

/-! ## JSON values as the request body decoder sees them

`mergeParams` decodes the request body with `json.NewDecoder(...).Decode`
after calling `dec.UseNumber()`, so a decoded JSON number is a
`json.Number`: the number's own literal text from the request, not a
`float64`.  `JsonVal.num lit` therefore carries that literal. -/

inductive JsonVal where
  | str (s : String)
  | num (lit : String)
  | bool (b : Bool)
  | null
  | arr (elems : List JsonVal)
  | obj (fields : List (String × JsonVal))
deriving Repr

/-- Lower-case hex digit, as Go's JSON encoder writes in \u escapes. -/
def hexDigitChar (n : Nat) : Char :=
  if n < 10 then Char.ofNat (48 + n) else Char.ofNat (87 + n)

/-- Six-character escape \u00xx used by Go's JSON encoder. -/
def uEscape (c : Char) : List Char :=
  ['\\', 'u', hexDigitChar (c.toNat / 4096 % 16), hexDigitChar (c.toNat / 256 % 16),
   hexDigitChar (c.toNat / 16 % 16), hexDigitChar (c.toNat % 16)]

/-- Escaping of one character inside a JSON string, as Go's `json.Marshal`
does it with the default (HTML-escaping) encoder. -/
def escapeChar (c : Char) : List Char :=
  if c = '"' then ['\\', '"']
  else if c = '\\' then ['\\', '\\']
  else if c = '\n' then ['\\', 'n']
  else if c = '\r' then ['\\', 'r']
  else if c = '\t' then ['\\', 't']
  else if c = '<' ∨ c = '>' ∨ c = '&' then uEscape c
  else if c.toNat < 32 ∨ c.toNat = 8232 ∨ c.toNat = 8233 then uEscape c
  else [c]

def escapeString (s : String) : String :=
  String.mk (s.data.flatMap escapeChar)

/-- Stable insertion of a rendered object field, ordered by raw key: Go's
`json.Marshal` serialises a map's fields in sorted key order. -/
def insertByKey (kv : String × String) : List (String × String) → List (String × String)
  | [] => [kv]
  | x :: xs => if kv.1 ≤ x.1 then kv :: x :: xs else x :: insertByKey kv xs

def sortByKey : List (String × String) → List (String × String)
  | [] => []
  | x :: xs => insertByKey x (sortByKey xs)

mutual

/-- Compact JSON serialisation, as Go's `json.Marshal` renders the values a
`UseNumber` decode can produce (strings, numbers as their literals, bools,
null, arrays, and objects with keys in sorted order). -/
def compactJson : JsonVal → String
  | .str s => "\"" ++ escapeString s ++ "\""
  | .num lit => lit
  | .bool true => "true"
  | .bool false => "false"
  | .null => "null"
  | .arr xs => "[" ++ String.intercalate "," (compactJsonList xs) ++ "]"
  | .obj fs =>
    "\x7b" ++
      String.intercalate ","
        ((sortByKey (compactJsonFields fs)).map
          (fun kv => "\"" ++ escapeString kv.1 ++ "\":" ++ kv.2)) ++ "\x7d"

def compactJsonList : List JsonVal → List String
  | [] => []
  | x :: xs => compactJson x :: compactJsonList xs

def compactJsonFields : List (String × JsonVal) → List (String × String)
  | [] => []
  | f :: fs => (f.1, compactJson f.2) :: compactJsonFields fs

end

/-- Embedding of main.go's `toString`: the coercion of one decoded JSON body
value to its parameter string.  The Go switch also has a `case float64`
(trim trailing zeros of a %f rendering); it is unreachable from
`mergeParams`, the only caller, because the decoder's `UseNumber` mode never
produces a `float64` — numbers arrive as `json.Number` and render as their
literal text via `t.String()`. -/
def toString : JsonVal → String
  | .str t => t
  | .num t => t
  | .bool true => "true"
  | .bool false => "false"
  | v => compactJson v

/-! ## URI pattern compilation and matching

`compileURI` in main.go splits the template on "/" (after trimming one
leading "/"), skips empty segments, and assembles the anchored regular
expression `^(/part)*$` where a `:name` segment contributes
`(?P<name>[^/]+)`, a `*name` segment contributes `(?P<name>.*)` and must sit
at the last index of the split, and any other segment contributes its
`regexp.QuoteMeta`-quoted literal text.  The embedding keeps the segment
list instead of the regex text and gives the matcher the regex's semantics
directly: each compiled segment consumes one "/" and then literal text, a
non-empty "/"-free run, or the whole remainder.  Because "[^/]+" cannot
cross a "/" and the expression is anchored, this matching is deterministic
and equal to the regex's. -/

inductive Seg where
  | lit (s : String)
  | capture (name : String)
  | wildcard (name : String)
deriving Repr, DecidableEq

/-- Go's `strings.TrimPrefix(pattern, "/")`: one leading "/" removed if
present. -/
def trimPrefixSlash (s : String) : String :=
  match s.data with
  | '/' :: rest => String.mk rest
  | _ => s

/-- Go's `strings.Split(s, "/")` on characters: the (always non-empty)
list of the separator-delimited pieces, empty pieces included. -/
def splitOnChar (sep : Char) : List Char → List (List Char)
  | [] => [[]]
  | c :: cs =>
    if c = sep then [] :: splitOnChar sep cs
    else
      match splitOnChar sep cs with
      | s :: rest => (c :: s) :: rest
      | [] => [[c]]

/-- The loop body of `compileURI`.  `n` is the length of the full split,
`i` the index of the head of the remaining list; a non-empty `*name`
segment at any index other than `n - 1` is a compile error ("wildcard must
be last"), exactly as in the source, which compares the index against
`len(segs)-1` of the split that still includes empty segments. -/
def compileSegs (n : Nat) : Nat → List (List Char) → Option (List Seg × Bool)
  | _, [] => some ([], false)
  | i, s :: rest =>
    match s with
    | [] => compileSegs n (i + 1) rest
    | c :: cs =>
      if c = ':' then
        match compileSegs n (i + 1) rest with
        | some (sl, w) => some (.capture (String.mk cs) :: sl, w)
        | none => none
      else if c = '*' then
        if i ≠ n - 1 then none
        else
          match compileSegs n (i + 1) rest with
          | some (sl, _) => some (.wildcard (String.mk cs) :: sl, true)
          | none => none
      else
        match compileSegs n (i + 1) rest with
        | some (sl, w) => some (.lit (String.mk (c :: cs)) :: sl, w)
        | none => none

/-- Embedding of `compileURI`: the compiled matcher (as its segment list)
and the wildcard flag, or `none` for the load-time "wildcard must be last"
error.  (Errors of `regexp.Compile` itself — an invalid capture-group name —
are outside the model; no claim depends on them.) -/
def compileURI (pattern : String) : Option (List Seg × Bool) :=
  let segs := splitOnChar '/' (trimPrefixSlash pattern).data
  compileSegs segs.length 0 segs

/-- Matching semantics of the compiled anchored regex against a request
path, together with `pathVars`' extraction of the named groups in group
order.  A `.wildcard` segment is only ever last in a compiled list (see
`compileSegs`); the `none` for a non-final wildcard is unreachable from
compiled patterns. -/
def matchSegs : List Seg → List Char → Option (List (String × String))
  | [], [] => some []
  | [], _ :: _ => none
  | _ :: _, [] => none
  | seg :: rest, c :: p =>
    if c = '/' then
      match seg with
      | .lit s =>
        if s.data.isPrefixOf p then matchSegs rest (p.drop s.data.length) else none
      | .capture n =>
        let run := p.takeWhile (fun c => c ≠ '/')
        if run.isEmpty then none
        else
          match matchSegs rest (p.drop run.length) with
          | some vars => some ((n, String.mk run) :: vars)
          | none => none
      | .wildcard n =>
        match rest with
        | [] => some [(n, String.mk p)]
        | _ :: _ => none
    else none

/-! ## Endpoints and requests -/

/-- A compiled endpoint, the fields of main.go's `Endpoint` after
`mustEndpointFromFile` filled the derived ones (`pathRe` is represented by
its compiled segment list, `timeout` in nanoseconds). -/
structure Endpoint where
  uri : String
  method : String
  query : List (String × String)
  body : List (String × String)
  script : List String
  header : String
  token : String
  timeout : Int
  error : Int
  segs : List Seg
  wildcard : Bool
deriving Repr

/-- An inbound HTTP request as the handler sees it: `headers` lists the
header fields in wire order as (name, value); `queryParams` lists, for each
key of the parsed query string, the value `r.URL.Query().Get(k)` returns
(the first value of that key); `jsonBody` is the decoded JSON object body,
`none` when the body is absent, unreadable or not a JSON object (in all of
which cases the Go decode contributes nothing to the parameters). -/
structure Request where
  method : String
  path : String
  queryParams : List (String × String)
  headers : List (String × String)
  jsonBody : Option (List (String × JsonVal))

/-- Embedding of `mergeParams`: one flat parameter map built by writing the
five sources into an empty Go map in order — endpoint query defaults,
endpoint body defaults, path variables, URL query parameters, then the
decoded JSON body fields coerced through `toString`. -/
def mergeParams (ep : Endpoint) (pv : List (String × String)) (req : Request) :
    String → Option String :=
  let p1 := setAll (fun _ => none) ep.query
  let p2 := setAll p1 ep.body
  let p3 := setAll p2 pv
  let p4 := setAll p3 req.queryParams
  match req.jsonBody with
  | some fields => setAll p4 (fields.map (fun kv => (kv.1, toString kv.2)))
  | none => p4

/-! ## Header lookup

`r.Header.Get(name)` canonicalises the looked-up name with
`textproto.CanonicalMIMEHeaderKey` and returns the first value stored under
that canonical name ("" when there is none).  The server itself stores each
incoming header field under the canonical form of its wire name (and
rejects requests whose header names contain invalid bytes), so `Get` is
modelled on the wire-order (name, value) list by comparing canonical
forms. -/

/-- Go textproto's `validHeaderFieldByte`: the token characters of RFC 7230
(digits, letters, and fifteen marks).  Bytes outside ASCII are invalid, as
is every other byte. -/
def validHeaderFieldByte (c : Char) : Bool :=
  decide ((48 ≤ c.toNat ∧ c.toNat ≤ 57) ∨ (65 ≤ c.toNat ∧ c.toNat ≤ 90) ∨
    (97 ≤ c.toNat ∧ c.toNat ≤ 122) ∨
    c.toNat ∈ [33, 35, 36, 37, 38, 39, 42, 43, 45, 46, 94, 95, 96, 124, 126])

/-- ASCII upper-case letter mapped to lower case, anything else unchanged. -/
def lowerByte (c : Char) : Char :=
  if 65 ≤ c.toNat ∧ c.toNat ≤ 90 then Char.ofNat (c.toNat + 32) else c

/-- ASCII lower-case letter mapped to upper case, anything else unchanged. -/
def upperByte (c : Char) : Char :=
  if 97 ≤ c.toNat ∧ c.toNat ≤ 122 then Char.ofNat (c.toNat - 32) else c

/-- The canonicalisation loop: upper-case the first character and every
character following a '-', lower-case the rest. -/
def canonicalChars : Bool → List Char → List Char
  | _, [] => []
  | up, c :: cs =>
    let c' := if up then upperByte c else lowerByte c
    c' :: canonicalChars (c' = '-') cs

/-- Go's `textproto.CanonicalMIMEHeaderKey`: canonical capitalisation when
every character is a valid header-field byte, the string unchanged
otherwise. -/
def canonicalMIMEHeaderKey (s : String) : String :=
  if s.data.all validHeaderFieldByte then String.mk (canonicalChars true s.data) else s

/-- `r.Header.Get(key)` over the wire-order header list. -/
def headerGet (headers : List (String × String)) (key : String) : String :=
  match headers.find? (fun kv => canonicalMIMEHeaderKey kv.1 == canonicalMIMEHeaderKey key) with
  | some kv => kv.2
  | none => ""

/-! ## Endpoint loading and validation -/

/-- Go `unicode.IsSpace` on the characters `strings.TrimSpace` trims, for
the Latin-1 range (exotic Unicode space classes are outside the model; no
claim uses them). -/
def goIsSpace (c : Char) : Bool :=
  decide (c.toNat ∈ [9, 10, 11, 12, 13, 32, 133, 160])

def trimSpace (s : String) : String :=
  String.mk (((s.data.dropWhile goIsSpace).reverse.dropWhile goIsSpace).reverse)

/-- Split at the first occurrence of `sep`, `none` when `sep` is absent
(the `len(parts) != 2` case of `strings.SplitN(a, sep, 2)`). -/
def splitOnFirst (sep : Char) : List Char → Option (List Char × List Char)
  | [] => none
  | c :: cs =>
    if c = sep then some ([], cs)
    else (splitOnFirst sep cs).map (fun p => (c :: p.1, p.2))

/-- Embedding of `parseAuth`: split the "Header:Token" declaration at the
first ':', trim both halves, require both non-empty. -/
def parseAuth (a : String) : Option (String × String) :=
  match splitOnFirst ':' a.data with
  | none => none
  | some (h0, t0) =>
    let h := trimSpace (String.mk h0)
    let t := trimSpace (String.mk t0)
    if h = "" ∨ t = "" then none else some (h, t)

/-! ### time.ParseDuration

Faithful to Go's grammar `[-+]?([0-9]*(\.[0-9]*)?unit)+` with the special
case "0"; overflow checks are dropped (no claim involves durations near
2^63 ns) and the float contribution of a fractional part is modelled as the
exact `f * unit / scale` floor division, which agrees with Go's
`float64(f) * (float64(unit)/scale)` on every value the claims touch. -/

def isDigit (c : Char) : Bool := decide (48 ≤ c.toNat ∧ c.toNat ≤ 57)

def leadingInt : List Char → Nat → Nat × List Char
  | [], acc => (acc, [])
  | c :: cs, acc =>
    if isDigit c then leadingInt cs (acc * 10 + (c.toNat - 48)) else (acc, c :: cs)

def leadingFraction : List Char → Nat → Nat → Nat × Nat × List Char
  | [], f, scale => (f, scale, [])
  | c :: cs, f, scale =>
    if isDigit c then leadingFraction cs (f * 10 + (c.toNat - 48)) (scale * 10)
    else (f, scale, c :: cs)

def unitNanos (u : String) : Option Nat :=
  if u = "ns" then some 1
  else if u = "us" then some 1000
  else if u = "µs" then some 1000
  else if u = "μs" then some 1000
  else if u = "ms" then some 1000000
  else if u = "s" then some 1000000000
  else if u = "m" then some 60000000000
  else if u = "h" then some 3600000000000
  else none

/-- One pass of ParseDuration's main loop per fuel unit; every successful
iteration consumes at least one character, so `length + 1` fuel never runs
out. -/
def durLoop : Nat → List Char → Nat → Option Nat
  | 0, _, _ => none
  | fuel + 1, s, d =>
    match s with
    | [] => some d
    | c :: _ =>
      if ¬(c = '.' ∨ isDigit c) then none
      else
        match leadingInt s 0 with
        | (v, s1) =>
          let pre : Bool := s1.length != s.length
          match (if s1.head? = some '.'
                 then (leadingFraction s1.tail 0 1, true)
                 else ((0, 1, s1), false) : (Nat × Nat × List Char) × Bool) with
          | ((f, scale, s2), dotSeen) =>
            let post : Bool := dotSeen && (s2.length != s1.tail.length)
            if !pre && !post then none
            else
              let i := (s2.takeWhile (fun c => ¬(c = '.' ∨ isDigit c))).length
              if i = 0 then none
              else
                match unitNanos (String.mk (s2.take i)) with
                | none => none
                | some unit =>
                  durLoop fuel (s2.drop i) (d + v * unit + (f * unit) / scale)

/-- Embedding of `time.ParseDuration`, in nanoseconds. -/
def parseDuration (s : String) : Option Int :=
  let cs := s.data
  let signed : Bool × List Char :=
    match cs with
    | c :: rest => if c = '-' ∨ c = '+' then (decide (c = '-'), rest) else (false, cs)
    | [] => (false, cs)
  match signed with
  | (neg, cs1) =>
    if cs1 = ['0'] then some 0
    else if cs1 = [] then none
    else
      match durLoop (cs1.length + 1) cs1 0 with
      | none => none
      | some d => some (if neg then -(d : Int) else (d : Int))

/-- An endpoint definition as `json.Unmarshal` leaves it in the `Endpoint`
struct before validation: absent strings are "", an absent error code is 0,
absent maps are `none` (Go `nil`). -/
structure RawEndpoint where
  uri : String
  method : String
  query : Option (List (String × String))
  body : Option (List (String × String))
  auth : String
  ttl : String
  error : Int
  script : List String
deriving Repr

/-- Embedding of `mustEndpointFromFile` after the file read and unmarshal:
required fields, auth split, ttl parse (default "8s"), error default 500,
default empty maps, URI compilation.  Note that the parsed duration is
stored without any positivity check. -/
def mustEndpoint (r : RawEndpoint) : Option Endpoint :=
  if r.uri = "" ∨ r.method = "" ∨ r.auth = "" ∨ r.script.length = 0 then none
  else
    match parseAuth r.auth with
    | none => none
    | some (h, t) =>
      let ttl := if r.ttl = "" then "8s" else r.ttl
      match parseDuration ttl with
      | none => none
      | some d =>
        let err := if r.error = 0 then 500 else r.error
        match compileURI r.uri with
        | none => none
        | some (segs, wild) =>
          some { uri := r.uri, method := r.method, query := r.query.getD [],
                 body := r.body.getD [], script := r.script, header := h, token := t,
                 timeout := d, error := err, segs := segs, wildcard := wild }

/-- Sorted insertion by `uri`, the order `sort.Slice(eps, uri <)` of
`loadEndpoints` establishes (Go's sort is unstable; for endpoints with
equal templates any order satisfies the sort's postcondition, and the model
fixes one). -/
def insertByURI (e : Endpoint) : List Endpoint → List Endpoint
  | [] => [e]
  | x :: xs => if e.uri ≤ x.uri then e :: x :: xs else x :: insertByURI e xs

def sortByURI : List Endpoint → List Endpoint
  | [] => []
  | x :: xs => insertByURI x (sortByURI xs)

/-- Embedding of `loadEndpoints` given the definitions the directory walk
found, in walk order: every definition must validate (fail fast), at least
one must exist, and the registry is the list sorted by `uri`. -/
def loadEndpoints (raws : List RawEndpoint) : Option (List Endpoint) :=
  match raws.mapM mustEndpoint with
  | none => none
  | some eps => if eps.isEmpty then none else some (sortByURI eps)

/-! ## Template expansion

`applyTemplate` rewrites each script token in a loop: find the first '{',
find the first '}' after it, look the name between them up in the
parameter map (missing names give Go's zero value ""), splice the value in,
and rescan the whole resulting string from the beginning.  The Go loop can
run forever (a parameter value may reintroduce a '{'), so the embedding
takes fuel and reports exhaustion as a separate result. -/

/-- Go's `strings.Index(s, c)` for a one-character needle, as a character
index (the delimiters searched for are ASCII, so byte and character
positions cut the string at the same places). -/
def idxOf (c : Char) : List Char → Option Nat
  | [] => none
  | x :: xs => if x = c then some 0 else (idxOf c xs).map (· + 1)

inductive ExpandResult where
  | ok (out : List Char)
  | unclosed
  | fuelOut
deriving Repr, DecidableEq

/-- The `for { ... }` loop of `applyTemplate` on one token. -/
def expandLoop (params : String → Option String) : Nat → List Char → ExpandResult
  | 0, _ => .fuelOut
  | fuel + 1, res =>
    match idxOf '{' res with
    | none => .ok res
    | some s =>
      match idxOf '}' (res.drop (s + 1)) with
      | none => .unclosed
      | some e0 =>
        let name := (res.drop (s + 1)).take e0
        let val := ((params (String.mk name)).getD "").data
        expandLoop params fuel (res.take s ++ val ++ res.drop (s + 1 + e0 + 1))

inductive TemplateResult where
  | ok (argv : List String)
  | err
  | fuelOut
deriving Repr, DecidableEq

/-- Embedding of `applyTemplate`: expand the tokens in order, aborting at
the first token with an unclosed placeholder. -/
def applyTemplate (fuel : Nat) (params : String → Option String) :
    List String → TemplateResult
  | [] => .ok []
  | t :: ts =>
    match expandLoop params fuel t.data with
    | .ok out =>
      match applyTemplate fuel params ts with
      | .ok rest => .ok (String.mk out :: rest)
      | .err => .err
      | .fuelOut => .fuelOut
    | .unclosed => .err
    | .fuelOut => .fuelOut

/-! ## The dispatch handler -/

/-- What `cmd.CombinedOutput()` and the surrounding context report about
one command execution: the combined output captured, whether the run
failed (`err != nil`: non-zero exit, start failure, or a kill by the
context), and whether the failure was the deadline
(`errors.Is(err, context.DeadlineExceeded) || ctx.Err() == context.DeadlineExceeded`). -/
structure ExecResult where
  out : String
  failed : Bool
  timedOut : Bool

/-- The response the handler writes once a command was run
(main.go lines 313-325): on failure the endpoint's error status with the
captured output, plus the "\n(timeout)\n" marker exactly when the deadline
was exceeded; on success 200 with the output. -/
def respond (ep : Endpoint) (res : ExecResult) : Int × String :=
  if res.failed then
    (ep.error, res.out ++ (if res.timedOut then "\n(timeout)\n" else ""))
  else
    (200, res.out)

/-- The selection loop of the dispatch handler: the first endpoint of the
registry whose method equals the request method and whose matcher accepts
the request path, with the extracted path variables. -/
def selectEndpoint (eps : List Endpoint) (req : Request) :
    Option (Endpoint × List (String × String)) :=
  match eps with
  | [] => none
  | e :: rest =>
    if req.method = e.method then
      match matchSegs e.segs req.path.data with
      | some vars => some (e, vars)
      | none => selectEndpoint rest req
    else selectEndpoint rest req

/-- The observable outcome of serving one request.  `executed` records the
argument vector handed to `exec.CommandContext` together with the response
status and body; every other constructor is a response written without
spawning a child process. -/
inductive Outcome where
  | health
  | notFound
  | unauthorized
  | badTemplate
  | executed (argv : List String) (status : Int) (body : String)
deriving Repr

/-- Embedding of the request pipeline of `main`: the "/health" route, then
the registry scan, the auth check, parameter resolution, template
expansion, execution and response.  `runner` abstracts the child process
(what running a given argv reports); `fuel` bounds the template loop, and
`none` is the (reachable) case of that loop never terminating, where no
response is ever written. -/
def serve (fuel : Nat) (eps : List Endpoint) (runner : List String → ExecResult)
    (req : Request) : Option Outcome :=
  if req.path = "/health" then some .health
  else
    match selectEndpoint eps req with
    | none => some .notFound
    | some (ep, pv) =>
      if headerGet req.headers ep.header ≠ ep.token then some .unauthorized
      else
        let params := mergeParams ep pv req
        match applyTemplate fuel params ep.script with
        | .err => some .badTemplate
        | .fuelOut => none
        | .ok argv =>
          match respond ep (runner argv) with
          | (status, body) => some (.executed argv status body)

/-! ## Shared lemmas -/

/-- Characterisation of `mergeParams`: the resolved value at any key is the
first hit walking the five sources from highest precedence (JSON body,
coerced through `toString`) down to lowest (endpoint query defaults). -/
theorem mergeParams_lookup (ep : Endpoint) (pv : List (String × String))
    (req : Request) (k : String) :
    mergeParams ep pv req k =
      ((req.jsonBody.bind
          (fun fs => lookupLast (fs.map (fun kv => (kv.1, toString kv.2))) k)).orElse
        (fun _ => (lookupLast req.queryParams k).orElse
          (fun _ => (lookupLast pv k).orElse
            (fun _ => (lookupLast ep.body k).orElse
              (fun _ => lookupLast ep.query k))))) := by
  cases hb : req.jsonBody with
  | none =>
    simp only [mergeParams, hb, Option.bind]
    rw [setAll_lookup, setAll_lookup, setAll_lookup, setAll_lookup]
    cases lookupLast req.queryParams k <;> cases lookupLast pv k <;>
      cases lookupLast ep.body k <;> cases lookupLast ep.query k <;> rfl
  | some fields =>
    simp only [mergeParams, hb, Option.bind]
    rw [setAll_lookup, setAll_lookup, setAll_lookup, setAll_lookup, setAll_lookup]
    cases lookupLast (fields.map (fun kv => (kv.1, toString kv.2))) k <;>
      cases lookupLast req.queryParams k <;> cases lookupLast pv k <;>
      cases lookupLast ep.body k <;> cases lookupLast ep.query k <;> rfl

/-! ## The claims -/

/-- C1: for every matched endpoint and request, the resolved parameter
mapping is the merge, in increasing precedence with later sources
overwriting earlier ones on key collision, of the endpoint's query
defaults, the endpoint's body defaults, the path variables, the URL query
string, and the JSON body fields: at every key the resolved value is the
JSON body's (coerced) value when the key occurs there, else the query
string's, else the path variables', else the body defaults', else the
query defaults'. -/
theorem C1_mergeParams_precedence (ep : Endpoint) (pv : List (String × String))
    (req : Request) (k : String) :
    mergeParams ep pv req k =
      ((req.jsonBody.bind
          (fun fs => lookupLast (fs.map (fun kv => (kv.1, toString kv.2))) k)).orElse
        (fun _ => (lookupLast req.queryParams k).orElse
          (fun _ => (lookupLast pv k).orElse
            (fun _ => (lookupLast ep.body k).orElse
              (fun _ => lookupLast ep.query k))))) :=
  mergeParams_lookup ep pv req k

/-! ### Concrete demonstration values -/

/-- A small valid compiled endpoint (what `mustEndpoint` produces for
uri "/run", method GET, auth "X-Token:SECRET", script ["echo"]). -/
def epDemo : Endpoint :=
  { uri := "/run", method := "GET", query := [], body := [], script := ["echo"],
    header := "X-Token", token := "SECRET", timeout := 8000000000, error := 500,
    segs := [Seg.lit "run"], wildcard := false }

/-- A matching request whose auth header carries the wrong value. -/
def reqBadAuth : Request :=
  { method := "GET", path := "/run", queryParams := [],
    headers := [("X-Token", "WRONG")], jsonBody := none }

/-- A matching request whose JSON body holds the number literal 1.50. -/
def reqNum : Request :=
  { method := "GET", path := "/run", queryParams := [], headers := [("X-Token", "SECRET")],
    jsonBody := some [("x", JsonVal.num "1.50")] }

/-- An execution oracle for witnesses: every run succeeds with output "out". -/
def runnerDemo : List String → ExecResult := fun _ => ⟨"out", false, false⟩

/-- C3 as stated is false: `mergeParams` decodes with `UseNumber`, so a
JSON number reaches `toString` as a `json.Number` and renders as its own
literal text.  The body field x: 1.50 resolves to "1.50", not the claimed
canonical form "1.5". -/
theorem C3_counterexample :
    toString (JsonVal.num "1.50") = "1.50" ∧
    mergeParams epDemo [] reqNum "x" = some "1.50" ∧
    ("1.50" : String) ≠ "1.5" :=
  ⟨rfl, rfl, by decide⟩

/-- C3 amended: strings pass through unchanged, numbers render as their
literal JSON source text (no canonicalisation — 1.50 stays "1.50"),
booleans render as true/false, and every other JSON value renders as its
compact JSON serialisation; a key present in the JSON body resolves to the
`toString` image of its (last) body value. -/
theorem C3_amended_coercion (s lit : String) (elems : List JsonVal)
    (fields : List (String × JsonVal)) (ep : Endpoint) (pv : List (String × String))
    (req : Request) (fs : List (String × JsonVal)) (k t : String) :
    toString (JsonVal.str s) = s ∧
    toString (JsonVal.num lit) = lit ∧
    toString (JsonVal.bool true) = "true" ∧
    toString (JsonVal.bool false) = "false" ∧
    toString JsonVal.null = compactJson JsonVal.null ∧
    toString (JsonVal.arr elems) = compactJson (JsonVal.arr elems) ∧
    toString (JsonVal.obj fields) = compactJson (JsonVal.obj fields) ∧
    (req.jsonBody = some fs →
      lookupLast (fs.map (fun kv => (kv.1, toString kv.2))) k = some t →
      mergeParams ep pv req k = some t) := by
  refine ⟨rfl, rfl, rfl, rfl, rfl, rfl, rfl, fun hb hv => ?_⟩
  rw [mergeParams_lookup, hb]
  simp only [Option.some_bind, hv]
  rfl

/-- C5: on a matched endpoint, an auth header whose value is not exactly
the token — and likewise a wholly absent auth header, on which
`Header.Get` yields "" while the validated token is never empty — makes
the handler answer 401 (`Outcome.unauthorized`) and nothing else happens:
no parameter resolution, no template expansion and no child process
(`Outcome.executed` is the only outcome that spawns one). -/
theorem C5_auth_rejects (fuel : Nat) (eps : List Endpoint)
    (runner : List String → ExecResult) (req : Request) (ep : Endpoint)
    (pv : List (String × String)) (hh : req.path ≠ "/health")
    (hs : selectEndpoint eps req = some (ep, pv)) :
    (headerGet req.headers ep.header ≠ ep.token →
      serve fuel eps runner req = some Outcome.unauthorized) ∧
    ((∀ kv ∈ req.headers,
        canonicalMIMEHeaderKey kv.1 ≠ canonicalMIMEHeaderKey ep.header) →
      ep.token ≠ "" → serve fuel eps runner req = some Outcome.unauthorized) := by
  constructor
  · intro ha
    unfold serve
    rw [if_neg hh, hs]
    exact if_pos ha
  · intro habs hne
    have hfind : req.headers.find? (fun kv =>
        canonicalMIMEHeaderKey kv.1 == canonicalMIMEHeaderKey ep.header) = none := by
      apply List.find?_eq_none.mpr
      intro kv hkv
      simpa using habs kv hkv
    have hget : headerGet req.headers ep.header = "" := by
      unfold headerGet
      rw [hfind]
    unfold serve
    rw [if_neg hh, hs]
    exact if_pos (by rw [hget]; exact fun he => hne he.symm)

theorem C5_auth_rejects_witness :
    (headerGet reqBadAuth.headers epDemo.header ≠ epDemo.token →
      serve 5 [epDemo] runnerDemo reqBadAuth = some Outcome.unauthorized) ∧
    ((∀ kv ∈ reqBadAuth.headers,
        canonicalMIMEHeaderKey kv.1 ≠ canonicalMIMEHeaderKey epDemo.header) →
      epDemo.token ≠ "" →
      serve 5 [epDemo] runnerDemo reqBadAuth = some Outcome.unauthorized) :=
  C5_auth_rejects 5 [epDemo] runnerDemo reqBadAuth epDemo [] (by decide) (by rfl)

/-- An accepted endpoint's error status is the raw definition's, with 0
(the absent field) replaced by 500. -/
theorem mustEndpoint_error_default (r : RawEndpoint) (ep : Endpoint)
    (h : mustEndpoint r = some ep) :
    ep.error = if r.error = 0 then 500 else r.error := by
  by_cases h0 : r.uri = "" ∨ r.method = "" ∨ r.auth = "" ∨ r.script.length = 0
  · rw [mustEndpoint, if_pos h0] at h; exact absurd h (by simp)
  · simp only [mustEndpoint, if_neg h0] at h
    cases hpa : parseAuth r.auth with
    | none => rw [hpa] at h; exact absurd h (by simp)
    | some ht0 =>
      rw [hpa] at h
      cases hpd : parseDuration (if r.ttl = "" then "8s" else r.ttl) with
      | none => rw [hpd] at h; exact absurd h (by simp)
      | some d =>
        rw [hpd] at h
        cases hcu : compileURI r.uri with
        | none => rw [hcu] at h; exact absurd h (by simp)
        | some sw =>
          rw [hcu] at h
          obtain rfl := Option.some_inj.mp h
          rfl

/-- C7: the response written after the command ran carries, on failure
(non-zero exit, start error or a timeout kill), the endpoint's configured
error status — which loading defaults to 500 when the definition carries
none — with the captured combined output as body, with the human-readable
timeout marker appended exactly when the failure was the deadline; on
success the response is 200 with the combined output.  `serve` writes
exactly this pair in its `executed` outcome. -/
theorem C7_failure_response (ep : Endpoint) (out : String) (t : Bool) :
    respond ep ⟨out, true, true⟩ = (ep.error, out ++ "\n(timeout)\n") ∧
    respond ep ⟨out, true, false⟩ = (ep.error, out ++ "") ∧
    respond ep ⟨out, false, t⟩ = (200, out) ∧
    (∀ (r : RawEndpoint) (ep2 : Endpoint), mustEndpoint r = some ep2 → r.error = 0 →
      ep2.error = 500) :=
  ⟨rfl, rfl, rfl, fun r ep2 h h0 => by
    rw [mustEndpoint_error_default r ep2 h, if_pos h0]⟩

/-! ### The template loop's step -/

theorem idxOf_eq_none (c : Char) (l : List Char) (h : idxOf c l = none) : c ∉ l := by
  induction l with
  | nil => simp
  | cons a as ih =>
    simp only [idxOf] at h
    by_cases ha : a = c
    · rw [if_pos ha] at h; exact absurd h (by simp)
    · rw [if_neg ha] at h
      cases hi : idxOf c as with
      | some k => rw [hi] at h; exact absurd h (by simp)
      | none =>
        intro hm
        rcases List.mem_cons.mp hm with h1 | h2
        · exact ha h1.symm
        · exact ih hi h2

theorem idxOf_eq_some (c : Char) (l : List Char) (i : Nat) (h : idxOf c l = some i) :
    ∃ A B, l = A ++ c :: B ∧ A.length = i ∧ c ∉ A := by
  induction l generalizing i with
  | nil => exact absurd h (by simp [idxOf])
  | cons a as ih =>
    simp only [idxOf] at h
    by_cases ha : a = c
    · rw [if_pos ha] at h
      refine ⟨[], as, by simp [ha], ?_, by simp⟩
      simpa using Option.some_inj.mp h
    · rw [if_neg ha] at h
      cases hi : idxOf c as with
      | none => rw [hi] at h; exact absurd h (by simp)
      | some k =>
        rw [hi] at h
        obtain ⟨A, B, hl, hlen, hnm⟩ := ih k hi
        refine ⟨a :: A, B, by simp [hl], ?_, ?_⟩
        · have hk : k + 1 = i := by simpa using Option.some_inj.mp h
          simp [hlen, hk]
        · intro hm
          rcases List.mem_cons.mp hm with h1 | h2
          · exact ha h1.symm
          · exact hnm h2

theorem idxOf_append_of_not_mem (c : Char) (A B : List Char) (h : c ∉ A) :
    idxOf c (A ++ c :: B) = some A.length := by
  induction A with
  | nil => simp [idxOf]
  | cons a as ih =>
    have ha : a ≠ c := fun he => h (by simp [he])
    simp [idxOf, ha, ih (fun hm => h (List.mem_cons_of_mem a hm))]

/-- One iteration of `expandLoop` as the source computes it: the first '{'
sits right after `A`, the first '}' after it right after `N`, the name
between them is looked up, the splice replaces the whole placeholder, and
the loop continues on the spliced string — which therefore is rescanned in
full, the substituted value included. -/
theorem expandLoop_step (params : String → Option String) (fuel : Nat) (A N C : List Char)
    (hA : '{' ∉ A) (hN : '}' ∉ N) :
    expandLoop params (fuel + 1) (A ++ '{' :: (N ++ '}' :: C)) =
      expandLoop params fuel (A ++ (((params (String.mk N)).getD "").data ++ C)) := by
  have hidx : idxOf '{' (A ++ '{' :: (N ++ '}' :: C)) = some A.length :=
    idxOf_append_of_not_mem '{' A _ hA
  have hdrop1 : (A ++ '{' :: (N ++ '}' :: C)).drop (A.length + 1) = N ++ '}' :: C := by
    have : A ++ '{' :: (N ++ '}' :: C) = (A ++ ['{']) ++ (N ++ '}' :: C) := by simp
    rw [this, List.drop_left' (by simp)]
  have hidx2 : idxOf '}' (N ++ '}' :: C) = some N.length :=
    idxOf_append_of_not_mem '}' N C hN
  have htakeN : (N ++ '}' :: C).take N.length = N := List.take_left N _
  have htakeA : (A ++ '{' :: (N ++ '}' :: C)).take A.length = A := List.take_left A _
  have hdrop2 : (A ++ '{' :: (N ++ '}' :: C)).drop (A.length + 1 + N.length + 1) = C := by
    have : A ++ '{' :: (N ++ '}' :: C) = (A ++ '{' :: (N ++ ['}'])) ++ C := by simp
    rw [this, List.drop_left' (by simp; omega)]
  simp only [expandLoop, hidx, hidx2, hdrop1, htakeN, htakeA, hdrop2, List.append_assoc]

/-- The parameter map of C2's counterexample: a holds a placeholder-shaped
value, b holds plain text. -/
def c2params : String → Option String :=
  fun k => if k = "a" then some "\x7bb\x7d" else if k = "b" then some "x" else none

/-- C2 as stated is false: expanding the one-token template "\x7ba\x7d"
where a's value is the placeholder-shaped text "\x7bb\x7d" yields "x" — the
spliced value was rescanned and substituted again instead of being copied
verbatim. -/
theorem C2_counterexample :
    applyTemplate 10 c2params ["\x7ba\x7d"] = TemplateResult.ok ["x"] ∧
    ("x" : String) ≠ "\x7bb\x7d" :=
  ⟨rfl, by decide⟩

/-- C2 amended: template substitution is textual but re-scans the whole
argument from its beginning after each splice, so the replacement text of a
placeholder is itself scanned for further placeholders (and substituted
again when it is placeholder-shaped): expanding "\x7bname\x7d…" with fuel
`fuel + 1` continues as the expansion of the spliced value followed by the
rest. -/
theorem C2_amended_rescan (params : String → Option String) (fuel : Nat)
    (name rest : List Char) (hN : '}' ∉ name) :
    expandLoop params (fuel + 1) ('{' :: (name ++ '}' :: rest)) =
      expandLoop params fuel (((params (String.mk name)).getD "").data ++ rest) := by
  simpa using expandLoop_step params fuel [] name rest (by simp) hN

theorem C2_amended_rescan_witness :
    expandLoop c2params 10 ('{' :: (['b'] ++ '}' :: [])) =
      expandLoop c2params 9 (((c2params (String.mk ['b'])).getD "").data ++ []) :=
  C2_amended_rescan c2params 9 ['b'] [] (by decide)

/-! ### Termination and error behaviour of the template loop -/

/-- An argument contains an unclosed placeholder: some '{' in it has no '}'
anywhere after it. -/
def hasUnclosed : List Char → Bool
  | [] => false
  | c :: w => if c = '{' then (if '}' ∈ w then hasUnclosed w else true) else hasUnclosed w

/-- Number of '{' characters of an argument; each loop iteration on
brace-free parameter values removes at least one. -/
def countLB (l : List Char) : Nat := l.countP (fun c => c == '{')

theorem hasUnclosed_append_left (A X : List Char) (h : '{' ∉ A) :
    hasUnclosed (A ++ X) = hasUnclosed X := by
  induction A with
  | nil => rfl
  | cons a as ih =>
    have ha : a ≠ '{' := fun he => h (by simp [he])
    simp only [List.cons_append, hasUnclosed, if_neg ha]
    exact ih (fun hm => h (List.mem_cons_of_mem a hm))

theorem hasUnclosed_append_rb (N C : List Char) :
    hasUnclosed (N ++ '}' :: C) = hasUnclosed C := by
  induction N with
  | nil => simp [hasUnclosed]
  | cons a as ih =>
    by_cases ha : a = '{'
    · have hm : ('}' : Char) ∈ as ++ '}' :: C := by simp
      simp [hasUnclosed, ha, hm, ih]
    · simp [hasUnclosed, ha, ih]

theorem hasUnclosed_of_not_mem (l : List Char) (h : '{' ∉ l) : hasUnclosed l = false := by
  induction l with
  | nil => rfl
  | cons a as ih =>
    have ha : a ≠ '{' := fun he => h (by simp [he])
    simp only [hasUnclosed, if_neg ha]
    exact ih (fun hm => h (List.mem_cons_of_mem a hm))

theorem hasUnclosed_of_tail_unclosed (A B : List Char) (h : '}' ∉ B) :
    hasUnclosed (A ++ '{' :: B) = true := by
  induction A with
  | nil => simp [hasUnclosed, h]
  | cons a as ih =>
    by_cases ha : a = '{'
    · by_cases hm : ('}' : Char) ∈ as ++ '{' :: B
      · simp [hasUnclosed, ha, hm, ih]
      · simp [hasUnclosed, ha, hm]
    · simp [hasUnclosed, ha, ih]

/-- With parameter values that never contain '{', the loop terminates
within `countLB` iterations and its result is decided by `hasUnclosed`: an
argument with an unclosed '{' always hits the "unclosed placeholder" error,
and an argument without one always expands successfully. -/
theorem expandLoop_total (params : String → Option String)
    (H : ∀ k, '{' ∉ ((params k).getD "").data) :
    ∀ fuel res, countLB res < fuel →
      (hasUnclosed res = true → expandLoop params fuel res = ExpandResult.unclosed) ∧
      (hasUnclosed res = false → ∃ out, expandLoop params fuel res = ExpandResult.ok out) := by
  intro fuel
  induction fuel with
  | zero => intro res h; exact absurd h (Nat.not_lt_zero _)
  | succ fuel ih =>
    intro res hf
    cases h1 : idxOf '{' res with
    | none =>
      have hmem := idxOf_eq_none _ _ h1
      have hu := hasUnclosed_of_not_mem res hmem
      refine ⟨fun ht => absurd (hu ▸ ht) (by simp), fun _ => ⟨res, ?_⟩⟩
      simp [expandLoop, h1]
    | some s =>
      obtain ⟨A, B, hres, hlen, hA⟩ := idxOf_eq_some _ _ _ h1
      subst hres
      have hdropB : (A ++ '{' :: B).drop (s + 1) = B := by
        have h2 : A ++ '{' :: B = (A ++ ['{']) ++ B := by simp
        rw [h2, List.drop_left' (by simp [hlen])]
      cases h2 : idxOf '}' B with
      | none =>
        have hmem2 := idxOf_eq_none _ _ h2
        have hu : hasUnclosed (A ++ '{' :: B) = true := hasUnclosed_of_tail_unclosed A B hmem2
        refine ⟨fun _ => ?_, fun hfalse => absurd (hu ▸ hfalse) (by simp)⟩
        simp [expandLoop, h1, hdropB, h2]
      | some e0 =>
        obtain ⟨N, C, hB, hlenN, hN⟩ := idxOf_eq_some _ _ _ h2
        subst hB
        have hstep := expandLoop_step params fuel A N C hA hN
        set val : List Char := ((params (String.mk N)).getD "").data with hval
        have hvalLB : '{' ∉ val := H (String.mk N)
        have hcval : countLB val = 0 := by
          refine List.countP_eq_zero.mpr ?_
          intro a ha
          simp only [beq_iff_eq]
          intro he
          exact hvalLB (he ▸ ha)
        have hbrace1 : (('{' : Char) == '{') = true := by decide
        have hbrace2 : (('}' : Char) == '{') = false := by decide
        have hcount : countLB (A ++ (val ++ C)) < countLB (A ++ '{' :: (N ++ '}' :: C)) := by
          simp only [countLB, List.countP_append, List.countP_cons, hbrace1, hbrace2,
            if_true, if_false] at hcval ⊢
          omega
        have hnew : countLB (A ++ (val ++ C)) < fuel := by omega
        have huold : hasUnclosed (A ++ '{' :: (N ++ '}' :: C)) = hasUnclosed C := by
          rw [hasUnclosed_append_left A _ hA]
          have hm : ('}' : Char) ∈ N ++ '}' :: C := by simp
          simp only [hasUnclosed, if_pos rfl, if_pos hm]
          exact hasUnclosed_append_rb N C
        have hunew : hasUnclosed (A ++ (val ++ C)) = hasUnclosed C := by
          rw [hasUnclosed_append_left A _ hA, hasUnclosed_append_left val C hvalLB]
        constructor
        · intro ht
          rw [hstep]
          exact (ih _ hnew).1 (by rw [hunew, ← huold]; exact ht)
        · intro hfp
          obtain ⟨out, hout⟩ := (ih _ hnew).2 (by rw [hunew, ← huold]; exact hfp)
          exact ⟨out, by rw [hstep]; exact hout⟩

theorem applyTemplate_ok (params : String → Option String)
    (H : ∀ k, '{' ∉ ((params k).getD "").data) (fuel : Nat) :
    ∀ ts : List String, (∀ u ∈ ts, countLB u.data < fuel ∧ hasUnclosed u.data = false) →
      ∃ argv, applyTemplate fuel params ts = TemplateResult.ok argv := by
  intro ts
  induction ts with
  | nil => exact fun _ => ⟨[], rfl⟩
  | cons t ts ih =>
    intro hall
    obtain ⟨hc, hu⟩ := hall t (by simp)
    obtain ⟨out, hout⟩ := (expandLoop_total params H fuel t.data hc).2 hu
    obtain ⟨argv, hargv⟩ := ih (fun u hu2 => hall u (by simp [hu2]))
    exact ⟨String.mk out :: argv, by simp [applyTemplate, hout, hargv]⟩

theorem applyTemplate_err (params : String → Option String)
    (H : ∀ k, '{' ∉ ((params k).getD "").data) (fuel : Nat) :
    ∀ (ts1 : List String) (t : String) (ts2 : List String),
      (∀ u ∈ ts1, countLB u.data < fuel ∧ hasUnclosed u.data = false) →
      countLB t.data < fuel → hasUnclosed t.data = true →
      applyTemplate fuel params (ts1 ++ t :: ts2) = TemplateResult.err := by
  intro ts1
  induction ts1 with
  | nil =>
    intro t ts2 _ hc hu
    have h := (expandLoop_total params H fuel t.data hc).1 hu
    simp [applyTemplate, h]
  | cons u ts1 ih =>
    intro t ts2 hall hc hu
    obtain ⟨hcu, huu⟩ := hall u (by simp)
    obtain ⟨out, hout⟩ := (expandLoop_total params H fuel u.data hcu).2 huu
    simp [applyTemplate, hout, ih t ts2 (fun v hv => hall v (by simp [hv])) hc hu]

/-! ### C8: the divergent template loop -/

/-- An endpoint whose script token "\x7ba\x7d\x7b" holds a placeholder
followed by an unclosed brace. -/
def c8ep : Endpoint :=
  { uri := "/run", method := "GET", query := [], body := [], script := ["\x7ba\x7d\x7b"],
    header := "X-Token", token := "SECRET", timeout := 8000000000, error := 500,
    segs := [Seg.lit "run"], wildcard := false }

/-- A correctly authenticated matching request whose query string sets the
parameter a to the placeholder-shaped value "\x7ba\x7d". -/
def c8req : Request :=
  { method := "GET", path := "/run", queryParams := [("a", "\x7ba\x7d")],
    headers := [("X-Token", "SECRET")], jsonBody := none }

/-- The script token of `c8ep`, as characters. -/
def c8tok : List Char := "\x7ba\x7d\x7b".data

theorem c8_step (n : Nat) :
    expandLoop (mergeParams c8ep [] c8req) (n + 1) c8tok =
      expandLoop (mergeParams c8ep [] c8req) n c8tok := rfl

theorem c8_forever (n : Nat) :
    expandLoop (mergeParams c8ep [] c8req) n c8tok = ExpandResult.fuelOut := by
  induction n with
  | zero => rfl
  | succ n ih => rw [c8_step]; exact ih

theorem applyTemplate_singleton_fuelOut (params : String → Option String) (fuel : Nat)
    (t : String) (h : expandLoop params fuel t.data = ExpandResult.fuelOut) :
    applyTemplate fuel params [t] = TemplateResult.fuelOut := by
  simp [applyTemplate, h]

theorem c8_applyTemplate (n : Nat) :
    applyTemplate n (mergeParams c8ep [] c8req) c8ep.script = TemplateResult.fuelOut :=
  applyTemplate_singleton_fuelOut (mergeParams c8ep [] c8req) n "\x7ba\x7d\x7b" (c8_forever n)

/-- Serving `c8req` never produces any outcome: the template loop runs
forever at every fuel bound, so the handler never answers at all. -/
def c8NeverAnswers : Prop :=
  ∀ n, serve n [c8ep] runnerDemo c8req = none

theorem c8_serve_never (n : Nat) : serve n [c8ep] runnerDemo c8req = none := by
  have hsel : selectEndpoint [c8ep] c8req = some (c8ep, []) := rfl
  have hcond : ¬(headerGet c8req.headers c8ep.header ≠ c8ep.token) := by decide
  have ht := c8_applyTemplate n
  simp only [serve, if_neg (show ¬c8req.path = "/health" by decide), hsel,
    if_neg hcond, ht]

/-- C8 as stated is false: the token "\x7ba\x7d\x7b" contains a '{' never
closed before the argument ends, yet with the query-supplied value
a = "\x7ba\x7d" each substitution reproduces the token, the rescan loop
never terminates, and no template error — no response at all — is ever
produced, so nothing is "answered as HTTP 400". -/
theorem C8_counterexample :
    hasUnclosed c8tok = true ∧ c8NeverAnswers :=
  ⟨by decide, c8_serve_never⟩

/-- C8 amended: provided no resolved parameter value contains a '{' (the
rescanning loop can otherwise run forever, as the counterexample shows),
expansion behaves as claimed: a token with an unclosed '{' hits the
template error; a token list without unclosed braces expands successfully;
a placeholder whose name is absent from the mapping is spliced as the empty
string and expansion simply continues; and a template error makes the
handler answer 400 (`Outcome.badTemplate`) without spawning any child
process. -/
theorem C8_amended (params : String → Option String)
    (H : ∀ k, '{' ∉ ((params k).getD "").data) (fuel : Nat) :
    (∀ t : String, countLB t.data < fuel → hasUnclosed t.data = true →
      expandLoop params fuel t.data = ExpandResult.unclosed) ∧
    (∀ ts : List String, (∀ u ∈ ts, countLB u.data < fuel ∧ hasUnclosed u.data = false) →
      ∃ argv, applyTemplate fuel params ts = TemplateResult.ok argv) ∧
    (∀ (ts1 : List String) (t : String) (ts2 : List String),
      (∀ u ∈ ts1, countLB u.data < fuel ∧ hasUnclosed u.data = false) →
      countLB t.data < fuel → hasUnclosed t.data = true →
      applyTemplate fuel params (ts1 ++ t :: ts2) = TemplateResult.err) ∧
    (∀ (m : Nat) (name rest : List Char), '}' ∉ name → params (String.mk name) = none →
      expandLoop params (m + 1) ('{' :: (name ++ '}' :: rest)) = expandLoop params m rest) ∧
    (∀ (fuel2 : Nat) (eps : List Endpoint) (runner : List String → ExecResult)
        (req : Request) (ep : Endpoint) (pv : List (String × String)),
      req.path ≠ "/health" → selectEndpoint eps req = some (ep, pv) →
      headerGet req.headers ep.header = ep.token →
      applyTemplate fuel2 (mergeParams ep pv req) ep.script = TemplateResult.err →
      serve fuel2 eps runner req = some Outcome.badTemplate) := by
  refine ⟨fun t hc hu => (expandLoop_total params H fuel t.data hc).1 hu,
    applyTemplate_ok params H fuel, applyTemplate_err params H fuel,
    fun m name rest h1 h2 => ?_, fun fuel2 eps runner req ep pv hh hs ha ht => ?_⟩
  · have h := expandLoop_step params m [] name rest (by simp) h1
    simpa [h2] using h
  · have hcond : ¬(headerGet req.headers ep.header ≠ ep.token) := not_not_intro ha
    simp only [serve, if_neg hh, hs, if_neg hcond, ht]

theorem C8_amended_witness :
    (∀ t : String, countLB t.data < 2 → hasUnclosed t.data = true →
      expandLoop (fun _ => none) 2 t.data = ExpandResult.unclosed) ∧
    (∀ ts : List String, (∀ u ∈ ts, countLB u.data < 2 ∧ hasUnclosed u.data = false) →
      ∃ argv, applyTemplate 2 (fun _ => none) ts = TemplateResult.ok argv) ∧
    (∀ (ts1 : List String) (t : String) (ts2 : List String),
      (∀ u ∈ ts1, countLB u.data < 2 ∧ hasUnclosed u.data = false) →
      countLB t.data < 2 → hasUnclosed t.data = true →
      applyTemplate 2 (fun _ => none) (ts1 ++ t :: ts2) = TemplateResult.err) ∧
    (∀ (m : Nat) (name rest : List Char), '}' ∉ name →
      (fun _ => none : String → Option String) (String.mk name) = none →
      expandLoop (fun _ => none) (m + 1) ('{' :: (name ++ '}' :: rest)) =
        expandLoop (fun _ => none) m rest) ∧
    (∀ (fuel2 : Nat) (eps : List Endpoint) (runner : List String → ExecResult)
        (req : Request) (ep : Endpoint) (pv : List (String × String)),
      req.path ≠ "/health" → selectEndpoint eps req = some (ep, pv) →
      headerGet req.headers ep.header = ep.token →
      applyTemplate fuel2 (mergeParams ep pv req) ep.script = TemplateResult.err →
      serve fuel2 eps runner req = some Outcome.badTemplate) :=
  C8_amended (fun _ => none) (fun k => by simp) 2

/-! ### C4: the ttl is parsed but never checked for positivity -/

/-- A well-formed endpoint definition whose ttl is the zero duration. -/
def c4raw0 : RawEndpoint :=
  { uri := "/z", method := "GET", query := none, body := none,
    auth := "X-Token:SECRET", ttl := "0s", error := 0, script := ["echo"] }

/-- The same definition with the ttl left unspecified. -/
def c4raw8 : RawEndpoint :=
  { uri := "/z", method := "GET", query := none, body := none,
    auth := "X-Token:SECRET", ttl := "", error := 0, script := ["echo"] }

/-- C4 as stated is false: `mustEndpointFromFile` stores the parsed
duration without any positivity check, so the definition with ttl "0s" is
accepted into the registry with a timeout of 0 instead of being rejected
at load time. -/
theorem C4_counterexample :
    (mustEndpoint c4raw0).isSome = true ∧
    (mustEndpoint c4raw0).map Endpoint.timeout = some 0 :=
  ⟨rfl, rfl⟩

/-- C4 amended: the ttl string (defaulted to "8s" when unspecified) must
parse as a duration for the endpoint to load, and every accepted endpoint's
timeout is exactly the parsed value — including zero and negative ones; an
unspecified ttl yields the 8-second default. -/
theorem C4_amended (r : RawEndpoint) (ep : Endpoint) (h : mustEndpoint r = some ep) :
    parseDuration (if r.ttl = "" then "8s" else r.ttl) = some ep.timeout ∧
    (r.ttl = "" → ep.timeout = 8000000000) := by
  by_cases h0 : r.uri = "" ∨ r.method = "" ∨ r.auth = "" ∨ r.script.length = 0
  · rw [mustEndpoint, if_pos h0] at h; exact absurd h (by simp)
  · simp only [mustEndpoint, if_neg h0] at h
    cases hpa : parseAuth r.auth with
    | none => rw [hpa] at h; exact absurd h (by simp)
    | some ht0 =>
      rw [hpa] at h
      cases hpd : parseDuration (if r.ttl = "" then "8s" else r.ttl) with
      | none => rw [hpd] at h; exact absurd h (by simp)
      | some d =>
        rw [hpd] at h
        cases hcu : compileURI r.uri with
        | none => rw [hcu] at h; exact absurd h (by simp)
        | some sw =>
          rw [hcu] at h
          obtain rfl := Option.some_inj.mp h
          refine ⟨?_, fun he => ?_⟩
          · exact rfl
          · rw [if_pos he] at hpd
            have h8 : parseDuration "8s" = some 8000000000 := rfl
            simpa using (Option.some_inj.mp (h8.symm.trans hpd)).symm

theorem C4_amended_witness :
    parseDuration (if c4raw8.ttl = "" then "8s" else c4raw8.ttl) =
      some ((mustEndpoint c4raw8).getD epDemo).timeout ∧
    (c4raw8.ttl = "" → ((mustEndpoint c4raw8).getD epDemo).timeout = 8000000000) :=
  C4_amended c4raw8 ((mustEndpoint c4raw8).getD epDemo) rfl

/-! ### C6: first-match dispatch over the sorted registry -/

/-- The dispatch loop's matching condition on one endpoint: declared
method equals the request method and the compiled matcher accepts the
request path. -/
def epMatches (e : Endpoint) (req : Request) : Bool :=
  (req.method == e.method) && (matchSegs e.segs req.path.data).isSome

theorem mem_insertByURI (e b : Endpoint) (l : List Endpoint) (h : b ∈ insertByURI e l) :
    b = e ∨ b ∈ l := by
  induction l with
  | nil => simpa [insertByURI] using h
  | cons x xs ih =>
    by_cases hle : e.uri ≤ x.uri
    · rw [insertByURI, if_pos hle] at h
      rcases List.mem_cons.mp h with h1 | h2
      · exact Or.inl h1
      · exact Or.inr h2
    · rw [insertByURI, if_neg hle] at h
      rcases List.mem_cons.mp h with h1 | h2
      · exact Or.inr (by simp [h1])
      · rcases ih h2 with h3 | h4
        · exact Or.inl h3
        · exact Or.inr (by simp [h4])

theorem insertByURI_sorted (e : Endpoint) (l : List Endpoint)
    (h : l.Sorted (fun a b : Endpoint => a.uri ≤ b.uri)) :
    (insertByURI e l).Sorted (fun a b : Endpoint => a.uri ≤ b.uri) := by
  induction l with
  | nil => simp [insertByURI]
  | cons x xs ih =>
    obtain ⟨hx, hxs⟩ := List.sorted_cons.mp h
    by_cases hle : e.uri ≤ x.uri
    · rw [insertByURI, if_pos hle]
      refine List.sorted_cons.mpr ⟨?_, h⟩
      intro b hb
      rcases List.mem_cons.mp hb with rfl | hb2
      · exact hle
      · exact le_trans hle (hx b hb2)
    · rw [insertByURI, if_neg hle]
      refine List.sorted_cons.mpr ⟨?_, ih hxs⟩
      intro b hb
      rcases mem_insertByURI e b xs hb with rfl | hb2
      · exact le_of_not_le hle
      · exact hx b hb2

theorem sortByURI_sorted (l : List Endpoint) :
    (sortByURI l).Sorted (fun a b : Endpoint => a.uri ≤ b.uri) := by
  induction l with
  | nil => simp [sortByURI]
  | cons x xs ih => exact insertByURI_sorted x (sortByURI xs) ih

/-- The selection loop returns the first matching endpoint: the selected
endpoint sits at some registry index, it matches, and every earlier entry
fails the match. -/
theorem selectEndpoint_spec (eps : List Endpoint) (req : Request) (ep : Endpoint)
    (pv : List (String × String)) (h : selectEndpoint eps req = some (ep, pv)) :
    ∃ i : Nat, eps[i]? = some ep ∧ epMatches ep req = true ∧
      matchSegs ep.segs req.path.data = some pv ∧
      ∀ j, j < i → ∀ e, eps[j]? = some e → epMatches e req = false := by
  induction eps with
  | nil => simp [selectEndpoint] at h
  | cons e rest ih =>
    by_cases hm : req.method = e.method
    · rw [selectEndpoint, if_pos hm] at h
      cases hms : matchSegs e.segs req.path.data with
      | some vars =>
        rw [hms] at h
        obtain ⟨he, hv⟩ := Prod.mk.injEq e vars ep pv ▸ Option.some_inj.mp h
        subst he; subst hv
        exact ⟨0, by simp, by simp [epMatches, hm, hms], hms, fun j hj => by omega⟩
      | none =>
        rw [hms] at h
        obtain ⟨i, h1, h2, h3, h4⟩ := ih h
        refine ⟨i + 1, by simpa using h1, h2, h3, ?_⟩
        intro j hj e' he'
        cases j with
        | zero =>
          obtain rfl : e = e' := by simpa using he'
          simp [epMatches, hms]
        | succ j => exact h4 j (by omega) e' (by simpa using he')
    · rw [selectEndpoint, if_neg hm] at h
      obtain ⟨i, h1, h2, h3, h4⟩ := ih h
      refine ⟨i + 1, by simpa using h1, h2, h3, ?_⟩
      intro j hj e' he'
      cases j with
      | zero =>
        obtain rfl : e = e' := by simpa using he'
        simp [epMatches, hm]
      | succ j => exact h4 j (by omega) e' (by simpa using he')

/-- C6: for a request to any path other than /health, the dispatcher
answers 404 when no endpoint matches; a selected endpoint is the first
matching entry of the registry (every earlier entry fails the
method-and-path match, so of two matching endpoints only the earlier is
ever selected); and the registry a successful load produces is sorted by
`uri`. -/
theorem C6_dispatch (fuel : Nat) (eps : List Endpoint) (runner : List String → ExecResult)
    (req : Request) (hh : req.path ≠ "/health") :
    (selectEndpoint eps req = none → serve fuel eps runner req = some Outcome.notFound) ∧
    (∀ ep pv, selectEndpoint eps req = some (ep, pv) →
      ∃ i : Nat, eps[i]? = some ep ∧ epMatches ep req = true ∧
        matchSegs ep.segs req.path.data = some pv ∧
        ∀ j, j < i → ∀ e, eps[j]? = some e → epMatches e req = false) ∧
    (∀ raws, loadEndpoints raws = some eps →
      eps.Sorted (fun a b : Endpoint => a.uri ≤ b.uri)) := by
  refine ⟨fun hn => ?_, fun ep pv h => selectEndpoint_spec eps req ep pv h,
    fun raws hl => ?_⟩
  · unfold serve
    rw [if_neg hh, hn]
  · unfold loadEndpoints at hl
    cases hmm : raws.mapM mustEndpoint with
    | none => rw [hmm] at hl; exact absurd hl (by simp)
    | some l =>
      rw [hmm] at hl
      have hl2 : (if l.isEmpty = true then none else some (sortByURI l)) = some eps := hl
      by_cases hemp : l.isEmpty = true
      · rw [if_pos hemp] at hl2; exact absurd hl2 (by simp)
      · rw [if_neg hemp] at hl2
        obtain rfl := Option.some_inj.mp hl2
        exact sortByURI_sorted l

/-- A request matching nothing in the demo registry. -/
def reqNoMatch : Request :=
  { method := "GET", path := "/absent", queryParams := [], headers := [], jsonBody := none }

theorem C6_dispatch_witness :
    (selectEndpoint [epDemo] reqNoMatch = none →
      serve 5 [epDemo] runnerDemo reqNoMatch = some Outcome.notFound) ∧
    (∀ ep pv, selectEndpoint [epDemo] reqNoMatch = some (ep, pv) →
      ∃ i : Nat, [epDemo][i]? = some ep ∧ epMatches ep reqNoMatch = true ∧
        matchSegs ep.segs reqNoMatch.path.data = some pv ∧
        ∀ j, j < i → ∀ e, [epDemo][j]? = some e → epMatches e reqNoMatch = false) ∧
    (∀ raws, loadEndpoints raws = some [epDemo] →
      ([epDemo] : List Endpoint).Sorted (fun a b : Endpoint => a.uri ≤ b.uri)) :=
  C6_dispatch 5 [epDemo] runnerDemo reqNoMatch (by decide)

/-! ### C9: wildcard placement and matching -/

def segIsWildcard : Seg → Bool
  | .wildcard _ => true
  | _ => false

/-- A non-empty `*name` segment anywhere but at the last index of the
split makes the whole compilation fail. -/
theorem compileSegs_wild_not_last (n : Nat) :
    ∀ (L : List (List Char)) (i : Nat), i + L.length = n →
      ∀ (j : Nat) (s : List Char), L[j]? = some s → s.head? = some '*' →
      i + j ≠ n - 1 → compileSegs n i L = none := by
  intro L
  induction L with
  | nil => intro i _ j s hj; simp at hj
  | cons s0 rest ih =>
    intro i hlen j s hj hhead hidx
    cases j with
    | zero =>
      obtain rfl : s0 = s := by simpa using hj
      cases s0 with
      | nil => simp at hhead
      | cons c cs =>
        obtain rfl : c = '*' := by simpa using hhead
        have hii : i ≠ n - 1 := by simpa using hidx
        simp [compileSegs, hii]
    | succ j =>
      have hlen2 : (s0 :: rest).length = rest.length + 1 := rfl
      have hrec : compileSegs n (i + 1) rest = none := by
        refine ih (i + 1) (by omega) j s (by simpa using hj) hhead (by omega)
      cases s0 with
      | nil => simpa [compileSegs] using hrec
      | cons c cs =>
        by_cases hc : c = ':'
        · simp [compileSegs, hc, hrec]
        · by_cases hw : c = '*'
          · simp [compileSegs, hc, hw, hrec]
          · simp [compileSegs, hc, hw, hrec]

theorem drop_length_takeWhile (q : Char → Bool) (p : List Char) :
    p.drop (p.takeWhile q).length = p.dropWhile q := by
  induction p with
  | nil => rfl
  | cons c cs ih =>
    by_cases hq : q c
    · simp [List.takeWhile_cons, List.dropWhile_cons, hq, ih]
    · simp [List.takeWhile_cons, List.dropWhile_cons, hq]

/-- Behind any wildcard-free prefix of compiled segments, the trailing
`*name` segment captures exactly the remainder of the path after the
last-consumed '/': whatever that remainder is — empty, or containing
further '/' characters — the capture named `n` holds it verbatim. -/
theorem matchSegs_wildcard_tail (xs : List Seg) (n : String) :
    ∀ (path : List Char) (vars : List (String × String)),
      (∀ s ∈ xs, segIsWildcard s = false) →
      matchSegs (xs ++ [Seg.wildcard n]) path = some vars →
      ∃ pre rem, path = pre ++ '/' :: rem ∧ vars.getLast? = some (n, String.mk rem) := by
  induction xs with
  | nil =>
    intro path vars _ h
    cases path with
    | nil => simp [matchSegs] at h
    | cons c p =>
      by_cases hc : c = '/'
      · subst hc
        have hv : vars = [(n, String.mk p)] := by
          have h2 : some [(n, String.mk p)] = some vars := by
            simpa [matchSegs] using h
          simpa using h2.symm
        exact ⟨[], p, rfl, by simp [hv]⟩
      · simp [matchSegs, hc] at h
  | cons seg xs ih =>
    intro path vars hnw h
    rw [List.cons_append] at h
    cases path with
    | nil => simp [matchSegs] at h
    | cons c p =>
      by_cases hc : c = '/'
      · subst hc
        cases seg with
        | lit s =>
          simp only [matchSegs, if_pos] at h
          by_cases hp : s.data.isPrefixOf p = true
          · rw [if_pos hp] at h
            obtain ⟨pre2, rem2, hdec, hlast⟩ :=
              ih (p.drop s.data.length) vars (fun u hu => hnw u (by simp [hu])) h
            have hpfx : p = s.data ++ p.drop s.data.length := by
              obtain ⟨t, ht⟩ := List.isPrefixOf_iff_prefix.mp hp
              rw [← ht, List.drop_left]
            refine ⟨'/' :: (s.data ++ pre2), rem2, ?_, hlast⟩
            rw [List.cons_append, List.append_assoc, ← hdec, ← hpfx]
          · rw [if_neg hp] at h
            exact absurd h (by simp)
        | capture nm =>
          simp only [matchSegs, if_pos] at h
          by_cases hrun : (p.takeWhile (fun c => c ≠ '/')).isEmpty = true
          · rw [if_pos hrun] at h
            exact absurd h (by simp)
          · rw [if_neg hrun] at h
            cases h2 : matchSegs (xs ++ [Seg.wildcard n])
                (p.drop (p.takeWhile (fun c => c ≠ '/')).length) with
            | none => rw [h2] at h; exact absurd h (by simp)
            | some vars2 =>
              rw [h2] at h
              obtain rfl : (nm, String.mk (p.takeWhile (fun c => c ≠ '/'))) :: vars2 = vars := by
                simpa using h
              obtain ⟨pre2, rem2, hdec, hlast⟩ :=
                ih _ vars2 (fun u hu => hnw u (by simp [hu])) h2
              have hpfx : p = p.takeWhile (fun c => c ≠ '/') ++
                  p.drop (p.takeWhile (fun c => c ≠ '/')).length := by
                rw [drop_length_takeWhile, List.takeWhile_append_dropWhile]
              refine ⟨'/' :: (p.takeWhile (fun c => c ≠ '/') ++ pre2), rem2, ?_, ?_⟩
              · rw [List.cons_append, List.append_assoc, ← hdec, ← hpfx]
              · cases vars2 with
                | nil => simp at hlast
                | cons v vs => rw [List.getLast?_cons_cons]; exact hlast
        | wildcard nm =>
          exact absurd (hnw (Seg.wildcard nm) (by simp)) (by simp [segIsWildcard])
      · simp only [matchSegs, if_neg hc] at h
        exact absurd h (by simp)

/-- C9: a `*name` segment is only legal as the final segment — compiling a
template whose split holds a non-empty `*`-segment at any earlier index
fails at load time — and, once compiled, the trailing wildcard matches the
entire remainder of the request path after its '/': the zero-length
remainder and remainders containing '/' alike, captured verbatim under
`name`. -/
theorem C9_wildcard_semantics :
    (∀ (pattern : String) (j : Nat) (s : List Char),
      (splitOnChar '/' (trimPrefixSlash pattern).data)[j]? = some s →
      s.head? = some '*' →
      j + 1 < (splitOnChar '/' (trimPrefixSlash pattern).data).length →
      compileURI pattern = none) ∧
    (∀ (n : String) (rem : List Char),
      matchSegs [Seg.wildcard n] ('/' :: rem) = some [(n, String.mk rem)]) ∧
    (∀ (xs : List Seg) (n : String) (path : List Char) (vars : List (String × String)),
      (∀ s ∈ xs, segIsWildcard s = false) →
      matchSegs (xs ++ [Seg.wildcard n]) path = some vars →
      ∃ pre rem, path = pre ++ '/' :: rem ∧ vars.getLast? = some (n, String.mk rem)) := by
  refine ⟨fun pattern j s hj hhead hlt => ?_, fun n rem => rfl,
    fun xs n path vars hnw h => matchSegs_wildcard_tail xs n path vars hnw h⟩
  have hjlen : j < (splitOnChar '/' (trimPrefixSlash pattern).data).length := by omega
  exact compileSegs_wild_not_last _ _ 0 (by omega) j s hj hhead (by omega)

/-! ### C10: case-insensitive header name lookup -/

theorem char_toNat_ofNat (n : Nat) (h : n < 55296) : (Char.ofNat n).toNat = n := by
  unfold Char.ofNat
  rw [dif_pos (Or.inl h : Nat.isValidChar n)]
  show (UInt32.ofNat' n _).toNat = n
  simp [UInt32.ofNat', UInt32.toNat]

theorem char_eq_of_toNat (a b : Char) (h : a.toNat = b.toNat) : a = b := by
  have h2 : Char.ofNat a.toNat = Char.ofNat b.toNat := congrArg Char.ofNat h
  rwa [Char.ofNat_toNat, Char.ofNat_toNat] at h2

/-- Characters equal up to ASCII case have equal upper-case forms. -/
theorem lowerByte_upperByte (a b : Char) (h : lowerByte a = lowerByte b) :
    upperByte a = upperByte b := by
  by_cases ha : 65 ≤ a.toNat ∧ a.toNat ≤ 90 <;> by_cases hb : 65 ≤ b.toNat ∧ b.toNat ≤ 90
  · rw [lowerByte, if_pos ha, lowerByte, if_pos hb] at h
    have h2 := congrArg Char.toNat h
    rw [char_toNat_ofNat _ (by omega), char_toNat_ofNat _ (by omega)] at h2
    rw [char_eq_of_toNat a b (by omega)]
  · rw [lowerByte, if_pos ha, lowerByte, if_neg hb] at h
    have hbn : b.toNat = a.toNat + 32 := by
      rw [← h, char_toNat_ofNat _ (by omega)]
    rw [upperByte, if_neg (show ¬(97 ≤ a.toNat ∧ a.toNat ≤ 122) by omega), upperByte,
      if_pos (show 97 ≤ b.toNat ∧ b.toNat ≤ 122 by omega), hbn]
    have he : a.toNat + 32 - 32 = a.toNat := by omega
    rw [he, Char.ofNat_toNat]
  · rw [lowerByte, if_neg ha, lowerByte, if_pos hb] at h
    have han : a.toNat = b.toNat + 32 := by
      rw [h, char_toNat_ofNat _ (by omega)]
    rw [upperByte, if_pos (show 97 ≤ a.toNat ∧ a.toNat ≤ 122 by omega), upperByte,
      if_neg (show ¬(97 ≤ b.toNat ∧ b.toNat ≤ 122) by omega), han]
    have he : b.toNat + 32 - 32 = b.toNat := by omega
    rw [he, Char.ofNat_toNat]
  · rw [lowerByte, if_neg ha, lowerByte, if_neg hb] at h
    rw [h]

/-- Characters equal up to ASCII case are equally valid header bytes. -/
theorem validHeaderFieldByte_congr (a b : Char) (h : lowerByte a = lowerByte b) :
    validHeaderFieldByte a = validHeaderFieldByte b := by
  by_cases ha : 65 ≤ a.toNat ∧ a.toNat ≤ 90 <;> by_cases hb : 65 ≤ b.toNat ∧ b.toNat ≤ 90
  · rw [lowerByte, if_pos ha, lowerByte, if_pos hb] at h
    have h2 := congrArg Char.toNat h
    rw [char_toNat_ofNat _ (by omega), char_toNat_ofNat _ (by omega)] at h2
    rw [char_eq_of_toNat a b (by omega)]
  · rw [lowerByte, if_pos ha, lowerByte, if_neg hb] at h
    have hbn : b.toNat = a.toNat + 32 := by
      rw [← h, char_toNat_ofNat _ (by omega)]
    have hva : validHeaderFieldByte a = true := by simp [validHeaderFieldByte]; omega
    have hvb : validHeaderFieldByte b = true := by simp [validHeaderFieldByte]; omega
    rw [hva, hvb]
  · rw [lowerByte, if_neg ha, lowerByte, if_pos hb] at h
    have han : a.toNat = b.toNat + 32 := by
      rw [h, char_toNat_ofNat _ (by omega)]
    have hva : validHeaderFieldByte a = true := by simp [validHeaderFieldByte]; omega
    have hvb : validHeaderFieldByte b = true := by simp [validHeaderFieldByte]; omega
    rw [hva, hvb]
  · rw [lowerByte, if_neg ha, lowerByte, if_neg hb] at h
    rw [h]

theorem canonicalChars_congr (l1 : List Char) :
    ∀ l2 : List Char, l1.map lowerByte = l2.map lowerByte →
      ∀ up, canonicalChars up l1 = canonicalChars up l2 := by
  induction l1 with
  | nil => intro l2 h up; cases l2 with | nil => rfl | cons b bs => simp at h
  | cons a as ih =>
    intro l2 h up
    cases l2 with
    | nil => simp at h
    | cons b bs =>
      simp only [List.map_cons, List.cons.injEq] at h
      have hc : (if up then upperByte a else lowerByte a) =
          (if up then upperByte b else lowerByte b) := by
        cases up <;> simp [h.1, lowerByte_upperByte a b h.1]
      simp only [canonicalChars, hc, ih bs h.2]

theorem map_lowerByte_all_valid (l1 : List Char) :
    ∀ l2 : List Char, l1.map lowerByte = l2.map lowerByte →
      l1.all validHeaderFieldByte = l2.all validHeaderFieldByte := by
  induction l1 with
  | nil => intro l2 h; cases l2 with | nil => rfl | cons b bs => simp at h
  | cons a as ih =>
    intro l2 h
    cases l2 with
    | nil => simp at h
    | cons b bs =>
      simp only [List.map_cons, List.cons.injEq] at h
      simp only [List.all_cons, validHeaderFieldByte_congr a b h.1, ih bs h.2]

/-- Header names equal up to ASCII case, when valid, canonicalise to the
same string. -/
theorem canonicalMIMEHeaderKey_congr (k1 k2 : String)
    (hv : k1.data.all validHeaderFieldByte = true)
    (h : k1.data.map lowerByte = k2.data.map lowerByte) :
    canonicalMIMEHeaderKey k1 = canonicalMIMEHeaderKey k2 := by
  have hv2 : k2.data.all validHeaderFieldByte = true :=
    (map_lowerByte_all_valid k1.data k2.data h) ▸ hv
  rw [canonicalMIMEHeaderKey, canonicalMIMEHeaderKey, if_pos hv, if_pos hv2,
    canonicalChars_congr k1.data k2.data h true]

/-- Wire headers of C10's counterexample: two fields whose names both
canonicalise to X-Token; the first carries the wrong value, the second the
right one. -/
def c10hs : List (String × String) := [("x-token", "WRONG"), ("X-Token", "SECRET")]

/-- The counterexample request carrying those two headers. -/
def c10req : Request :=
  { method := "GET", path := "/run", queryParams := [], headers := c10hs, jsonBody := none }

/-- C10 as stated is false on repeated header names: the request carries a
header whose name equals the endpoint's X-Token up to canonicalisation and
whose value equals the token byte-for-byte, yet `Header.Get` returns the
first value stored under the canonical name — "WRONG" — and the handler
answers 401. -/
theorem C10_counterexample :
    (("X-Token", "SECRET") ∈ c10hs ∧
      canonicalMIMEHeaderKey "X-Token" = canonicalMIMEHeaderKey "x-token") ∧
    headerGet c10hs "X-Token" = "WRONG" ∧
    serve 5 [epDemo] runnerDemo c10req = some Outcome.unauthorized :=
  ⟨⟨by decide, rfl⟩, rfl, rfl⟩

/-- C10 amended: authentication passes exactly when the first wire header
whose name canonicalises like `authHeaderName` exists and carries exactly
`authToken` (later duplicates never authenticate), and the declared
capitalisation of a valid header name never affects the lookup: names equal
up to ASCII letter case give identical `Header.Get` results. -/
theorem C10_amended (hs : List (String × String)) (ep : Endpoint) (k1 k2 : String) :
    (ep.token ≠ "" →
      (headerGet hs ep.header = ep.token ↔
        (hs.find? (fun kv =>
            canonicalMIMEHeaderKey kv.1 == canonicalMIMEHeaderKey ep.header)).map Prod.snd =
          some ep.token)) ∧
    (k1.data.all validHeaderFieldByte = true →
      k1.data.map lowerByte = k2.data.map lowerByte →
      headerGet hs k1 = headerGet hs k2) := by
  constructor
  · intro hne
    unfold headerGet
    cases hf : hs.find? (fun kv =>
        canonicalMIMEHeaderKey kv.1 == canonicalMIMEHeaderKey ep.header) with
    | none => simpa using fun he => hne he.symm
    | some kv => simp
  · intro hv h
    unfold headerGet
    rw [canonicalMIMEHeaderKey_congr k1 k2 hv h]

end Shhoook
